import Mathlib

/-!
Verification of the core algorithms of the xenon repository: the
sentence-aware chunker `split_into_sentence_chunks` (main.py), the
generation gateway (llm_interface.py), the persona pipeline controller
(main.py) and the playback engine session start and balloon geometry
(ui_renderer.py).

Python strings are modelled as `List Char`, machine integers as
`Nat`/`Int`, Python floats as exact rationals, and random or fallible
operations take explicit parameters (a permutation-choosing function for
`random.sample`, an `Option` for a backend that may raise).
-/

/-- Whitespace test for the ASCII characters matched by the regex class
used throughout the source (space, tab, newline, carriage return,
vertical tab, form feed). -/
def isWS (c : Char) : Bool :=
  c == ' ' || c == '\t' || c == '\n' || c == '\r' || c == '\x0b' || c == '\x0c'

/-- Terminal sentence punctuation from the pattern at main.py line 34. -/
def isTerm (c : Char) : Bool :=
  c == '.' || c == '!' || c == '?'

/-- Worker for `pySplit`, modelling Python `str.split()` with no
arguments: split on whitespace runs and drop empty pieces. `acc` holds
the current word reversed. -/
def pySplitAux : List Char → List Char → List (List Char)
  | [], acc => if acc.isEmpty then [] else [acc.reverse]
  | c :: r, acc =>
    if isWS c then
      if acc.isEmpty then pySplitAux r [] else acc.reverse :: pySplitAux r []
    else pySplitAux r (c :: acc)

/-- Python `s.split()` (main.py line 47). -/
def pySplit (s : List Char) : List (List Char) :=
  pySplitAux s []

/-- Concatenation of a list of lists (used to state word-sequence facts). -/
def catLists {α : Type} : List (List α) → List α
  | [] => []
  | s :: r => s ++ catLists r

/-- Python single-space join, as used by " ".join(cur) in main.py. -/
def joinSp : List (List Char) → List Char
  | [] => []
  | [s] => s
  | s :: r1 :: rest => s ++ ' ' :: joinSp (r1 :: rest)

/-- Python `str.strip()`: remove leading and trailing whitespace. -/
def stripWS (s : List Char) : List Char :=
  ((s.dropWhile isWS).reverse.dropWhile isWS).reverse

/-- Worker for `collapseWS`. `prevWS` records whether the previous input
character belonged to a whitespace run that was already replaced by a
single space. -/
def collapseAux : Bool → List Char → List Char
  | _, [] => []
  | prevWS, c :: r =>
    if isWS c then
      if prevWS then collapseAux true r else ' ' :: collapseAux true r
    else c :: collapseAux false r

/-- Python re.sub of one or more whitespace characters by a single
space: every whitespace run becomes one space. -/
def collapseWS (s : List Char) : List Char := collapseAux false s

/-- The whitespace normalisation at main.py line 32: strip, then
collapse every whitespace run to a single space. -/
def normalizeWS (text : List Char) : List Char := collapseWS (stripWS text)

/-- The regex lookbehind: the head of the reversed accumulated piece is
the character immediately before the current position. -/
def headIsTerm : List Char → Bool
  | [] => false
  | p :: _ => isTerm p

/-- Worker for `sentSplit`, modelling the re.split at main.py line 34
(split at a whitespace run immediately preceded by terminal punctuation;
the run is consumed, the punctuation kept). `skipping` is true while
inside the whitespace run of a match; `acc` holds the reversed current
piece. A match can only begin right after terminal punctuation, so
whitespace not preceded by it stays inside the piece. -/
def sentSplitAux : List Char → List Char → Bool → List (List Char)
  | [], acc, _ => [acc.reverse]
  | c :: r, acc, skipping =>
    if skipping && isWS c then sentSplitAux r acc true
    else if isWS c && headIsTerm acc then acc.reverse :: sentSplitAux r [] true
    else sentSplitAux r (c :: acc) false

/-- Sentence boundary split of main.py line 34. -/
def sentSplit (t : List Char) : List (List Char) := sentSplitAux t [] false

/-- The hard-split loop at main.py lines 53-54: for i in
range(0, len(w), max_words) emit the window from i of max_words words.
Faithful for max_words at least 1 (a Python range needs a positive step). -/
def hardSplit {α : Type} (m : Nat) : List α → List (List α)
  | [] => []
  | a :: l => (a :: l.take (m - 1)) :: hardSplit m (l.drop (m - 1))
termination_by l => l.length
decreasing_by
  simp only [List.length_cons, List.length_drop]
  omega

/-- The flush() closure at main.py lines 39-44: when the accumulator is
nonempty, append " ".join(cur).strip() as a completed chunk. -/
def flushChunk (cur : List (List Char)) : List (List Char) :=
  if cur.isEmpty then [] else [stripWS (joinSp cur)]

/-- The sentence-packing loop at main.py lines 46-63. `cur` is the
accumulator of whole sentences and `curW` its running word count; the
source keeps them in sync (cur is empty exactly when cur_words is 0), so
after a hard split the loop continues from an empty accumulator. -/
def chunkLoop (m : Nat) : List (List Char) → List (List Char) → Nat → List (List Char)
  | [], cur, _ => flushChunk cur
  | s :: rest, cur, curW =>
    let w := pySplit s
    if w.isEmpty then chunkLoop m rest cur curW
    else if m < w.length then
      flushChunk cur ++ (hardSplit m w).map joinSp ++ chunkLoop m rest [] 0
    else if curW + w.length ≤ m then
      chunkLoop m rest (cur ++ [s]) (curW + w.length)
    else
      flushChunk cur ++ chunkLoop m rest [s] w.length

/-- split_into_sentence_chunks from main.py lines 25-64. -/
def split_into_sentence_chunks (text : List Char) (m : Nat) : List (List Char) :=
  if text.isEmpty then []
  else chunkLoop m (sentSplit (normalizeWS text)) [] 0

/-! ### Word-level facts about `pySplit` -/

theorem pySplitAux_ws_only (ws : List Char) (acc : List Char)
    (h : ∀ c ∈ ws, isWS c = true) :
    pySplitAux ws acc = if acc.isEmpty then [] else [acc.reverse] := by
  induction ws generalizing acc with
  | nil => rfl
  | cons c r ih =>
    have hc : isWS c = true := h c (List.mem_cons_self _ _)
    have hr : ∀ x ∈ r, isWS x = true := fun x hx => h x (List.mem_cons_of_mem _ hx)
    simp only [pySplitAux, hc, if_true]
    rw [ih [] hr]
    by_cases ha : acc.isEmpty
    · simp [ha]
    · simp [ha]

theorem pySplitAux_sep (xs : List Char) (w : Char) (ys : List Char) (acc : List Char)
    (hw : isWS w = true) :
    pySplitAux (xs ++ w :: ys) acc = pySplitAux xs acc ++ pySplitAux ys [] := by
  induction xs generalizing acc with
  | nil =>
    simp only [List.nil_append, pySplitAux, hw, if_true]
    by_cases ha : acc.isEmpty
    · simp [pySplitAux, ha]
    · simp [pySplitAux, ha]
  | cons c r ih =>
    simp only [List.cons_append, pySplitAux]
    by_cases hc : isWS c
    · by_cases ha : acc.isEmpty
      · simp [hc, ha, ih]
      · simp [hc, ha, ih]
    · simp [hc, ih]

theorem pySplitAux_append_ws (xs ws : List Char) (acc : List Char)
    (h : ∀ c ∈ ws, isWS c = true) :
    pySplitAux (xs ++ ws) acc = pySplitAux xs acc := by
  induction xs generalizing acc with
  | nil =>
    simp only [List.nil_append]
    rw [pySplitAux_ws_only ws acc h]
    rfl
  | cons c r ih =>
    simp only [List.cons_append, pySplitAux]
    by_cases hc : isWS c
    · by_cases ha : acc.isEmpty
      · simp [hc, ha, ih]
      · simp [hc, ha, ih]
    · simp [hc, ih]

theorem pySplitAux_dropWhile (s : List Char) :
    pySplitAux (s.dropWhile isWS) [] = pySplitAux s [] := by
  induction s with
  | nil => rfl
  | cons c r ih =>
    by_cases hc : isWS c
    · rw [List.dropWhile_cons_of_pos hc, ih]
      simp [pySplitAux, hc]
    · rw [List.dropWhile_cons_of_neg hc]

theorem mem_takeWhile_ws (l : List Char) (c : Char)
    (h : c ∈ l.takeWhile isWS) : isWS c = true := by
  induction l with
  | nil => cases h
  | cons a r ih =>
    by_cases ha : isWS a
    · rw [List.takeWhile_cons_of_pos ha] at h
      rcases List.mem_cons.mp h with h' | h'
      · exact h' ▸ ha
      · exact ih h'
    · rw [List.takeWhile_cons_of_neg ha] at h
      cases h

theorem pySplit_stripWS (s : List Char) : pySplit (stripWS s) = pySplit s := by
  show pySplitAux (((s.dropWhile isWS).reverse.dropWhile isWS).reverse) [] = pySplitAux s []
  have hdecomp : s.dropWhile isWS =
      ((s.dropWhile isWS).reverse.dropWhile isWS).reverse
        ++ ((s.dropWhile isWS).reverse.takeWhile isWS).reverse := by
    conv_lhs =>
      rw [← List.reverse_reverse (s.dropWhile isWS),
        ← List.takeWhile_append_dropWhile (p := isWS) (l := (s.dropWhile isWS).reverse)]
    rw [List.reverse_append]
  have hws : ∀ c ∈ ((s.dropWhile isWS).reverse.takeWhile isWS).reverse, isWS c = true := by
    intro c hc
    rw [List.mem_reverse] at hc
    exact mem_takeWhile_ws _ _ hc
  have h1 := pySplitAux_append_ws
    (((s.dropWhile isWS).reverse.dropWhile isWS).reverse)
    (((s.dropWhile isWS).reverse.takeWhile isWS).reverse) [] hws
  rw [← hdecomp] at h1
  rw [← h1]
  exact pySplitAux_dropWhile s

theorem pySplitAux_collapseAux (s : List Char) :
    ∀ (prevWS : Bool) (acc : List Char), (prevWS = true → acc = []) →
    pySplitAux (collapseAux prevWS s) acc = pySplitAux s acc := by
  induction s with
  | nil => intro p acc _; rfl
  | cons c r ih =>
    intro p acc h
    by_cases hc : isWS c
    · cases p with
      | true =>
        have hacc : acc = [] := h rfl
        subst hacc
        have hcol : collapseAux true (c :: r) = collapseAux true r := by
          simp [collapseAux, hc]
        rw [hcol, ih true [] (fun _ => rfl)]
        have h2 : pySplitAux (c :: r) [] = pySplitAux r [] := by
          simp [pySplitAux, hc]
        rw [h2]
      | false =>
        have hcol : collapseAux false (c :: r) = ' ' :: collapseAux true r := by
          simp [collapseAux, hc]
        rw [hcol]
        have hsp : isWS ' ' = true := by decide
        by_cases ha : acc.isEmpty
        · simp [pySplitAux, hc, hsp, ha, ih true [] (fun _ => rfl)]
        · simp [pySplitAux, hc, hsp, ha, ih true [] (fun _ => rfl)]
    · have hcol : collapseAux p (c :: r) = c :: collapseAux false r := by
        simp [collapseAux, hc]
      rw [hcol]
      have h1 : pySplitAux (c :: collapseAux false r) acc =
          pySplitAux (collapseAux false r) (c :: acc) := by
        simp [pySplitAux, hc]
      have h2 : pySplitAux (c :: r) acc = pySplitAux r (c :: acc) := by
        simp [pySplitAux, hc]
      rw [h1, h2]
      exact ih false (c :: acc) (by simp)

theorem pySplit_collapseWS (s : List Char) : pySplit (collapseWS s) = pySplit s :=
  pySplitAux_collapseAux s false [] (by simp)

theorem pySplit_normalizeWS (s : List Char) : pySplit (normalizeWS s) = pySplit s := by
  rw [normalizeWS, pySplit_collapseWS, pySplit_stripWS]

theorem pySplitAux_wordlike (s : List Char) :
    ∀ acc, (∀ c ∈ acc, isWS c = false) →
    ∀ w ∈ pySplitAux s acc, w ≠ [] ∧ ∀ c ∈ w, isWS c = false := by
  induction s with
  | nil =>
    intro acc hacc w hw
    by_cases ha : acc.isEmpty
    · simp [pySplitAux, ha] at hw
    · simp only [pySplitAux, ha, if_false, Bool.false_eq_true] at hw
      have : w = acc.reverse := by simpa using hw
      subst this
      constructor
      · simp only [ne_eq, List.reverse_eq_nil_iff]
        intro hnil
        rw [hnil] at ha
        simp at ha
      · intro c hc
        exact hacc c (List.mem_reverse.mp hc)
  | cons c r ih =>
    intro acc hacc w hw
    by_cases hc : isWS c
    · by_cases ha : acc.isEmpty
      · simp only [pySplitAux, hc, if_true, ha] at hw
        exact ih [] (by simp) w hw
      · simp only [pySplitAux, hc, if_true, ha, if_false, Bool.false_eq_true] at hw
        rcases List.mem_cons.mp hw with h' | h'
        · subst h'
          constructor
          · simp only [ne_eq, List.reverse_eq_nil_iff]
            intro hnil
            rw [hnil] at ha
            simp at ha
          · intro x hx
            exact hacc x (List.mem_reverse.mp hx)
        · exact ih [] (by simp) w h'
    · simp only [pySplitAux, hc, if_false, Bool.false_eq_true] at hw
      refine ih (c :: acc) ?_ w hw
      intro x hx
      rcases List.mem_cons.mp hx with h' | h'
      · subst h'
        simpa using hc
      · exact hacc x h'

theorem pySplit_wordlike (s : List Char) :
    ∀ w ∈ pySplit s, w ≠ [] ∧ ∀ c ∈ w, isWS c = false :=
  pySplitAux_wordlike s [] (by simp)

theorem pySplitAux_no_ws (w : List Char) :
    ∀ acc, (∀ c ∈ w, isWS c = false) →
    pySplitAux w acc =
      if (acc.reverse ++ w).isEmpty then [] else [acc.reverse ++ w] := by
  induction w with
  | nil =>
    intro acc _
    by_cases ha : acc.isEmpty
    · have : acc = [] := by simpa using ha
      subst this
      rfl
    · have : acc ≠ [] := by simpa using ha
      simp [pySplitAux, ha, this]
  | cons c r ih =>
    intro acc h
    have hc : isWS c = false := h c (List.mem_cons_self _ _)
    have hr : ∀ x ∈ r, isWS x = false := fun x hx => h x (List.mem_cons_of_mem _ hx)
    simp only [pySplitAux, hc, if_false, Bool.false_eq_true]
    rw [ih (c :: acc) hr]
    simp

theorem pySplit_single_word (w : List Char) (h0 : w ≠ [])
    (h : ∀ c ∈ w, isWS c = false) : pySplit w = [w] := by
  show pySplitAux w [] = [w]
  rw [pySplitAux_no_ws w [] h]
  simp [h0]

/-! ### `catLists` and the space join -/

theorem catLists_append {α : Type} (a b : List (List α)) :
    catLists (a ++ b) = catLists a ++ catLists b := by
  induction a with
  | nil => rfl
  | cons x t ih => simp [catLists, ih]

theorem catLists_singletons {α : Type} (l : List α) :
    catLists (l.map fun a => [a]) = l := by
  induction l with
  | nil => rfl
  | cons x t ih => simp [catLists, ih]

theorem catLists_length {α : Type} (L : List (List α)) :
    (catLists L).length = (L.map List.length).sum := by
  induction L with
  | nil => rfl
  | cons x t ih => simp [catLists, ih]

theorem mem_catLists {α : Type} (L : List (List α)) (g : List α) (x : α)
    (hg : g ∈ L) (hx : x ∈ g) : x ∈ catLists L := by
  induction L with
  | nil => cases hg
  | cons a t ih =>
    rcases List.mem_cons.mp hg with h | h
    · subst h
      exact List.mem_append_left _ hx
    · exact List.mem_append_right _ (ih h)

theorem pySplit_joinSp (l : List (List Char)) :
    pySplit (joinSp l) = catLists (l.map pySplit) := by
  induction l with
  | nil => rfl
  | cons a t ih =>
    cases t with
    | nil => simp [joinSp, catLists]
    | cons b t2 =>
      show pySplitAux (a ++ ' ' :: joinSp (b :: t2)) [] = _
      rw [pySplitAux_sep a ' ' (joinSp (b :: t2)) [] (by decide)]
      rw [show pySplitAux (joinSp (b :: t2)) [] = pySplit (joinSp (b :: t2)) from rfl, ih]
      simp [catLists, pySplit]

/-! ### The sentence split preserves the word sequence -/

theorem sentSplitAux_words (t : List Char) :
    ∀ (acc : List Char) (skipping : Bool), (skipping = true → acc = []) →
    catLists ((sentSplitAux t acc skipping).map pySplit) = pySplit (acc.reverse ++ t) := by
  induction t with
  | nil =>
    intro acc sk _
    simp [sentSplitAux, catLists]
  | cons c r ih =>
    intro acc sk h
    by_cases h1 : sk && isWS c
    · obtain ⟨hsk, hc⟩ : sk = true ∧ isWS c = true := by simpa using h1
      have hacc : acc = [] := h hsk
      subst hacc
      have hstep : sentSplitAux (c :: r) [] sk = sentSplitAux r [] true := by
        simp [sentSplitAux, h1]
      rw [hstep, ih [] true (fun _ => rfl)]
      simp only [List.reverse_nil, List.nil_append]
      show pySplit r = pySplitAux (c :: r) []
      simp [pySplit, pySplitAux, hc]
    · by_cases h2 : isWS c && headIsTerm acc
      · obtain ⟨hc, -⟩ : isWS c = true ∧ headIsTerm acc = true := by simpa using h2
        have hstep : sentSplitAux (c :: r) acc sk =
            acc.reverse :: sentSplitAux r [] true := by
          simp [sentSplitAux, h1, h2]
        rw [hstep]
        simp only [List.map_cons, catLists]
        rw [ih [] true (fun _ => rfl)]
        simp only [List.reverse_nil, List.nil_append]
        show pySplit acc.reverse ++ pySplit r = pySplitAux (acc.reverse ++ c :: r) []
        rw [pySplitAux_sep acc.reverse c r [] hc]
        rfl
      · have hstep : sentSplitAux (c :: r) acc sk =
            sentSplitAux r (c :: acc) false := by
          simp [sentSplitAux, h1, h2]
        rw [hstep, ih (c :: acc) false (by simp)]
        simp

theorem sentSplit_words (t : List Char) :
    catLists ((sentSplit t).map pySplit) = pySplit t := by
  have := sentSplitAux_words t [] false (by simp)
  simpa [sentSplit] using this

/-! ### Facts about the hard split of an oversized sentence -/

theorem hardSplit_cat {α : Type} (m : Nat) :
    ∀ (w : List α), catLists (hardSplit m w) = w
  | [] => by simp [hardSplit, catLists]
  | a :: l => by
    simp only [hardSplit, catLists]
    rw [hardSplit_cat m (l.drop (m - 1))]
    simp [List.take_append_drop]
termination_by w => w.length
decreasing_by
  simp only [List.length_cons, List.length_drop]
  omega

theorem hardSplit_mem_bound {α : Type} (m : Nat) (hm : 1 ≤ m) :
    ∀ (w : List α), ∀ g ∈ hardSplit m w, g ≠ [] ∧ g.length ≤ m
  | [] => by simp [hardSplit]
  | a :: l => by
    intro g hg
    simp only [hardSplit] at hg
    rcases List.mem_cons.mp hg with h | h
    · subst h
      refine ⟨by simp, ?_⟩
      have ht := List.length_take (m - 1) l
      simp only [List.length_cons, ht]
      omega
    · exact hardSplit_mem_bound m hm (l.drop (m - 1)) g h
termination_by w => w.length
decreasing_by
  simp only [List.length_cons, List.length_drop]
  omega

theorem hardSplit_count {α : Type} (m : Nat) (hm : 1 ≤ m) :
    ∀ (w : List α), (hardSplit m w).length = (w.length + m - 1) / m
  | [] => by
    simp only [hardSplit, List.length_nil, List.length]
    rw [Nat.div_eq_of_lt (by omega)]
  | a :: l => by
    simp only [hardSplit, List.length_cons]
    rw [hardSplit_count m hm (l.drop (m - 1))]
    rw [List.length_drop]
    rcases Nat.lt_or_ge l.length (m - 1) with hcase | hcase
    · have h1 : l.length - (m - 1) = 0 := by omega
      rw [h1]
      have h2 : 0 + m - 1 = m - 1 := by omega
      rw [h2, Nat.div_eq_of_lt (by omega)]
      have h3 : l.length + 1 + m - 1 = l.length + m := by omega
      rw [h3, Nat.add_div_right _ (by omega), Nat.div_eq_of_lt (by omega)]
    · have h1 : l.length - (m - 1) + m - 1 = l.length := by omega
      have h3 : l.length + 1 + m - 1 = l.length + m := by omega
      rw [h1, h3, Nat.add_div_right _ (by omega)]
termination_by w => w.length
decreasing_by
  simp only [List.length_cons, List.length_drop]
  omega

theorem hardSplit_dropLast {α : Type} (m : Nat) (hm : 1 ≤ m) :
    ∀ (w : List α), ∀ g ∈ (hardSplit m w).dropLast, g.length = m
  | [] => by simp [hardSplit]
  | a :: l => by
    intro g hg
    rcases hd : l.drop (m - 1) with _ | ⟨b, l2⟩
    · have hrw : hardSplit m (a :: l) = [a :: l.take (m - 1)] := by
        simp [hardSplit, hd]
      rw [hrw] at hg
      simp at hg
    · have hrw : hardSplit m (a :: l) =
          (a :: l.take (m - 1)) :: hardSplit m (b :: l2) := by
        conv_lhs => rw [hardSplit]
        rw [hd]
      obtain ⟨x, xs, hx⟩ : ∃ x xs, hardSplit m (b :: l2) = x :: xs := by
        refine ⟨b :: l2.take (m - 1), hardSplit m (l2.drop (m - 1)), ?_⟩
        simp [hardSplit]
      rw [hrw, hx, List.dropLast_cons₂] at hg
      rcases List.mem_cons.mp hg with h | h
      · subst h
        have hlen : m - 1 < l.length + 1 ∧ m - 1 ≤ l.length := by
          constructor
          · by_contra hcon
            have : l.length ≤ m - 1 := by omega
            rw [List.drop_eq_nil_of_le this] at hd
            cases hd
          · by_contra hcon
            have : l.length ≤ m - 1 := by omega
            rw [List.drop_eq_nil_of_le this] at hd
            cases hd
        have ht := List.length_take (m - 1) l
        simp only [List.length_cons, ht]
        omega
      · rw [← hx] at h
        exact hardSplit_dropLast m hm (l.drop (m - 1)) g (by rw [hd]; exact h)
termination_by w => w.length
decreasing_by
  simp only [List.length_cons, List.length_drop]
  omega

theorem hardSplit_words (m : Nat) (s : List Char) :
    ∀ g ∈ hardSplit m (pySplit s), pySplit (joinSp g) = g := by
  intro g hg
  have hsub : ∀ x ∈ g, x ∈ pySplit s := by
    intro x hx
    have hmem : x ∈ catLists (hardSplit m (pySplit s)) :=
      mem_catLists _ g x hg hx
    rwa [hardSplit_cat] at hmem
  rw [pySplit_joinSp]
  have hmap : g.map pySplit = g.map (fun wd => [wd]) := by
    apply List.map_congr_left
    intro wd hwd
    have hw := pySplit_wordlike s wd (hsub wd hwd)
    exact pySplit_single_word wd hw.1 hw.2
  rw [hmap, catLists_singletons]

/-! ### Invariants of the packing loop -/

theorem flushChunk_words (cur : List (List Char)) :
    catLists ((flushChunk cur).map pySplit) = catLists (cur.map pySplit) := by
  by_cases h : cur.isEmpty
  · have : cur = [] := by simpa using h
    subst this
    rfl
  · simp only [flushChunk, h, if_false, Bool.false_eq_true]
    simp only [List.map_cons, List.map_nil, catLists, List.append_nil]
    rw [pySplit_stripWS, pySplit_joinSp]

theorem fragWords (m : Nat) (s : List Char) :
    catLists ((((hardSplit m (pySplit s)).map joinSp).map pySplit)) = pySplit s := by
  rw [List.map_map]
  have hmap : (hardSplit m (pySplit s)).map (pySplit ∘ joinSp)
      = (hardSplit m (pySplit s)).map id := by
    apply List.map_congr_left
    intro g hg
    exact hardSplit_words m s g hg
  rw [hmap, List.map_id, hardSplit_cat]

theorem chunkLoop_words (m : Nat) (sents : List (List Char)) :
    ∀ (cur : List (List Char)) (curW : Nat),
    catLists ((chunkLoop m sents cur curW).map pySplit)
      = catLists (cur.map pySplit) ++ catLists (sents.map pySplit) := by
  induction sents with
  | nil =>
    intro cur curW
    simp only [chunkLoop, List.map_nil, catLists, List.append_nil]
    exact flushChunk_words cur
  | cons s rest ih =>
    intro cur curW
    simp only [chunkLoop]
    by_cases h1 : (pySplit s).isEmpty
    · have hs : pySplit s = [] := by simpa using h1
      simp only [h1, if_true]
      rw [ih cur curW]
      simp [catLists, hs]
    · simp only [h1, if_false, Bool.false_eq_true]
      by_cases h2 : m < (pySplit s).length
      · simp only [if_pos h2]
        rw [List.map_append, List.map_append, catLists_append, catLists_append,
          ih [] 0, flushChunk_words, fragWords]
        simp [catLists]
      · simp only [if_neg h2]
        by_cases h3 : curW + (pySplit s).length ≤ m
        · simp only [if_pos h3]
          rw [ih (cur ++ [s]) (curW + (pySplit s).length)]
          rw [List.map_append, catLists_append]
          simp [catLists]
        · simp only [if_neg h3]
          rw [List.map_append, catLists_append, ih [s] (pySplit s).length,
            flushChunk_words]
          simp [catLists]

theorem flush_word_len (cur : List (List Char)) :
    (pySplit (stripWS (joinSp cur))).length
      = (cur.map (fun s => (pySplit s).length)).sum := by
  rw [pySplit_stripWS, pySplit_joinSp, catLists_length, List.map_map]
  rfl

theorem chunkLoop_bound (m : Nat) (hm : 1 ≤ m) (sents : List (List Char)) :
    ∀ (cur : List (List Char)) (curW : Nat),
    (cur.map (fun s => (pySplit s).length)).sum = curW → curW ≤ m →
    ∀ c ∈ chunkLoop m sents cur curW, (pySplit c).length ≤ m := by
  induction sents with
  | nil =>
    intro cur curW hsum hle c hc
    simp only [chunkLoop] at hc
    by_cases h : cur.isEmpty
    · simp [flushChunk, h] at hc
    · simp only [flushChunk, h, if_false, Bool.false_eq_true] at hc
      have hcc : c = stripWS (joinSp cur) := by simpa using hc
      subst hcc
      rw [flush_word_len, hsum]
      exact hle
  | cons s rest ih =>
    intro cur curW hsum hle c hc
    simp only [chunkLoop] at hc
    by_cases h1 : (pySplit s).isEmpty
    · rw [if_pos h1] at hc
      exact ih cur curW hsum hle c hc
    · rw [if_neg (by simpa using h1)] at hc
      by_cases h2 : m < (pySplit s).length
      · rw [if_pos h2] at hc
        rcases List.mem_append.mp hc with hc' | hc'
        · rcases List.mem_append.mp hc' with hf | hfr
          · by_cases h : cur.isEmpty
            · simp [flushChunk, h] at hf
            · simp only [flushChunk, h, if_false, Bool.false_eq_true] at hf
              have hcc : c = stripWS (joinSp cur) := by simpa using hf
              subst hcc
              rw [flush_word_len, hsum]
              exact hle
          · obtain ⟨g, hg, hgc⟩ := List.mem_map.mp hfr
            subst hgc
            rw [hardSplit_words m s g hg]
            exact (hardSplit_mem_bound m hm (pySplit s) g hg).2
        · exact ih [] 0 (by simp) (by omega) c hc'
      · rw [if_neg h2] at hc
        by_cases h3 : curW + (pySplit s).length ≤ m
        · rw [if_pos h3] at hc
          refine ih (cur ++ [s]) (curW + (pySplit s).length) ?_ h3 c hc
          simp [hsum]
        · rw [if_neg h3] at hc
          rcases List.mem_append.mp hc with hf | hc'
          · by_cases h : cur.isEmpty
            · simp [flushChunk, h] at hf
            · simp only [flushChunk, h, if_false, Bool.false_eq_true] at hf
              have hcc : c = stripWS (joinSp cur) := by simpa using hf
              subst hcc
              rw [flush_word_len, hsum]
              exact hle
          · refine ih [s] (pySplit s).length ?_ (by omega) c hc'
            simp

theorem chunkLoop_nonempty (m : Nat) (hm : 1 ≤ m) (sents : List (List Char)) :
    ∀ (cur : List (List Char)) (curW : Nat),
    (∀ s ∈ cur, pySplit s ≠ []) →
    ∀ c ∈ chunkLoop m sents cur curW, pySplit c ≠ [] ∧ c ≠ [] := by
  have flush_case : ∀ (cur : List (List Char)), (∀ s ∈ cur, pySplit s ≠ []) →
      ∀ c ∈ flushChunk cur, pySplit c ≠ [] ∧ c ≠ [] := by
    intro cur hcur c hc
    by_cases h : cur.isEmpty
    · simp [flushChunk, h] at hc
    · simp only [flushChunk, h, if_false, Bool.false_eq_true] at hc
      have hcc : c = stripWS (joinSp cur) := by simpa using hc
      subst hcc
      have hne : pySplit (stripWS (joinSp cur)) ≠ [] := by
        rw [pySplit_stripWS, pySplit_joinSp]
        rcases cur with _ | ⟨s0, cur'⟩
        · simp at h
        · simp only [List.map_cons, catLists]
          intro habs
          rcases List.append_eq_nil.mp habs with ⟨habs1, _⟩
          exact hcur s0 (List.mem_cons_self _ _) habs1
      refine ⟨hne, ?_⟩
      intro habs
      rw [habs] at hne
      exact hne rfl
  induction sents with
  | nil =>
    intro cur curW hcur c hc
    simp only [chunkLoop] at hc
    exact flush_case cur hcur c hc
  | cons s rest ih =>
    intro cur curW hcur c hc
    simp only [chunkLoop] at hc
    by_cases h1 : (pySplit s).isEmpty
    · rw [if_pos h1] at hc
      exact ih cur curW hcur c hc
    · rw [if_neg (by simpa using h1)] at hc
      by_cases h2 : m < (pySplit s).length
      · rw [if_pos h2] at hc
        rcases List.mem_append.mp hc with hc' | hc'
        · rcases List.mem_append.mp hc' with hf | hfr
          · exact flush_case cur hcur c hf
          · obtain ⟨g, hg, hgc⟩ := List.mem_map.mp hfr
            subst hgc
            have hgne : g ≠ [] := (hardSplit_mem_bound m hm (pySplit s) g hg).1
            have hw : pySplit (joinSp g) = g := hardSplit_words m s g hg
            refine ⟨by rw [hw]; exact hgne, ?_⟩
            intro habs
            rw [habs] at hw
            exact hgne (by simpa [pySplit, pySplitAux] using hw.symm)
        · exact ih [] 0 (by simp) c hc'
      · rw [if_neg h2] at hc
        by_cases h3 : curW + (pySplit s).length ≤ m
        · rw [if_pos h3] at hc
          refine ih (cur ++ [s]) (curW + (pySplit s).length) ?_ c hc
          intro x hx
          rcases List.mem_append.mp hx with h' | h'
          · exact hcur x h'
          · have : x = s := by simpa using h'
            subst this
            simpa using h1
        · rw [if_neg h3] at hc
          rcases List.mem_append.mp hc with hf | hc'
          · exact flush_case cur hcur c hf
          · refine ih [s] (pySplit s).length ?_ c hc'
            intro x hx
            have : x = s := by simpa using hx
            subst this
            simpa using h1

/-! ### Claims about the chunker -/

/-- Every chunk of the list has at most `m` words. -/
def chunksWithin (m : Nat) (l : List (List Char)) : Bool :=
  l.all (fun c => decide ((pySplit c).length ≤ m))

/-- Every chunk of the list is a nonempty string with at least one word. -/
def chunksNonEmpty (l : List (List Char)) : Bool :=
  l.all (fun c => !c.isEmpty && !(pySplit c).isEmpty)

/-- A sample text used to instantiate the chunker claims. -/
def exTextA : List Char :=
  ('H' :: 'i' :: ' ' :: 'h' :: 'o' :: '.' :: ' ' :: 'G' :: 'o' :: '.' :: [])

/-- A sample short sentence (two words). -/
def exSentA : List Char :=
  ('O' :: 'n' :: 'e' :: ' ' :: 't' :: 'w' :: 'o' :: '.' :: [])

/-- A sample long sentence (five words). -/
def exSentB : List Char :=
  ('a' :: ' ' :: 'b' :: ' ' :: 'c' :: ' ' :: 'd' :: ' ' :: 'e' :: '.' :: [])

/-- A whitespace-only text of three spaces. -/
def threeSpaces : List Char := (' ' :: ' ' :: ' ' :: [])

/-- Claim C1: for every input text and every max_words at least 1, joining
the chunks returned by split_into_sentence_chunks with single spaces
yields exactly the word sequence of the whitespace-normalised input; no
word is lost, duplicated or reordered. -/
theorem claim_C1_words_preserved (text : List Char) (m : Nat) (_hm : 1 ≤ m) :
    pySplit (joinSp (split_into_sentence_chunks text m))
      = pySplit (normalizeWS text) := by
  unfold split_into_sentence_chunks
  by_cases h : text.isEmpty
  · have : text = [] := by simpa using h
    subst this
    rfl
  · rw [if_neg (by simpa using h)]
    rw [pySplit_joinSp, chunkLoop_words]
    simp only [List.map_nil, catLists, List.nil_append]
    exact sentSplit_words (normalizeWS text)

/-- Witness for claim C1 at a concrete text and budget. -/
theorem claim_C1_witness :
    1 ≤ 3 ∧ pySplit (joinSp (split_into_sentence_chunks exTextA 3))
      = pySplit (normalizeWS exTextA) :=
  ⟨by decide, claim_C1_words_preserved exTextA 3 (by decide)⟩

/-- Claim C2: for every text and max_words at least 1, every chunk has at
most max_words words (in particular every chunk that is not a hard-split
fragment), and the loop is greedy: a sentence that fits on its own is
appended to the accumulator exactly when the running word count plus its
word count stays at most max_words, otherwise the accumulator is flushed
and a new one starts with that sentence. -/
theorem claim_C2_bounded_and_greedy (text : List Char) (m : Nat)
    (s : List Char) (rest cur : List (List Char)) (curW : Nat)
    (hm : 1 ≤ m) (hw : pySplit s ≠ []) (hlen : (pySplit s).length ≤ m) :
    chunksWithin m (split_into_sentence_chunks text m) = true ∧
    chunkLoop m (s :: rest) cur curW =
      (if curW + (pySplit s).length ≤ m then
        chunkLoop m rest (cur ++ [s]) (curW + (pySplit s).length)
      else flushChunk cur ++ chunkLoop m rest [s] (pySplit s).length) := by
  constructor
  · rw [chunksWithin, List.all_eq_true]
    intro c hc
    rw [decide_eq_true_eq]
    unfold split_into_sentence_chunks at hc
    by_cases h : text.isEmpty
    · rw [if_pos h] at hc
      cases hc
    · rw [if_neg (by simpa using h)] at hc
      exact chunkLoop_bound m hm _ [] 0 (by simp) (by omega) c hc
  · simp only [chunkLoop]
    rw [if_neg (by simpa using hw), if_neg (by omega)]

/-- Witness for claim C2 at a concrete text, budget and loop state. -/
theorem claim_C2_witness :
    (1 ≤ 3 ∧ pySplit exSentA ≠ [] ∧ (pySplit exSentA).length ≤ 3) ∧
    (chunksWithin 3 (split_into_sentence_chunks exTextA 3) = true ∧
     chunkLoop 3 (exSentA :: []) [] 0 =
      (if 0 + (pySplit exSentA).length ≤ 3 then
        chunkLoop 3 [] ([] ++ [exSentA]) (0 + (pySplit exSentA).length)
      else flushChunk [] ++ chunkLoop 3 [] [exSentA] (pySplit exSentA).length)) :=
  ⟨⟨by decide, by decide, by decide⟩,
    claim_C2_bounded_and_greedy exTextA 3 exSentA [] [] 0
      (by decide) (by decide) (by decide)⟩

/-- Claim C5: a sentence with more words than max_words makes the loop
flush the accumulator and emit exactly ceil(wordCount / max_words)
consecutive hard-split fragments, each of exactly max_words words except
possibly the last, and no fragment merges with adjacent sentences (the
loop then continues on the remaining sentences with a fresh accumulator). -/
theorem claim_C5_hard_split (m : Nat) (s : List Char)
    (rest cur : List (List Char)) (curW : Nat)
    (hm : 1 ≤ m) (hlong : m < (pySplit s).length) :
    chunkLoop m (s :: rest) cur curW =
      flushChunk cur ++ (hardSplit m (pySplit s)).map joinSp
        ++ chunkLoop m rest [] 0 ∧
    ((hardSplit m (pySplit s)).map joinSp).length
      = ((pySplit s).length + m - 1) / m ∧
    ((hardSplit m (pySplit s)).map joinSp).map (fun f => (pySplit f).length)
      = (hardSplit m (pySplit s)).map List.length ∧
    ((hardSplit m (pySplit s)).dropLast).all (fun g => g.length == m) = true ∧
    (hardSplit m (pySplit s)).all
      (fun g => decide (g.length ≤ m) && !g.isEmpty) = true := by
  have hwne : pySplit s ≠ [] := by
    intro habs
    rw [habs] at hlong
    simp at hlong
  refine ⟨?_, ?_, ?_, ?_, ?_⟩
  · simp only [chunkLoop]
    rw [if_neg (by simpa using hwne), if_pos hlong]
  · rw [List.length_map]
    exact hardSplit_count m hm (pySplit s)
  · rw [List.map_map]
    apply List.map_congr_left
    intro g hg
    simp only [Function.comp_apply]
    rw [hardSplit_words m s g hg]
  · rw [List.all_eq_true]
    intro g hg
    rw [beq_iff_eq]
    exact hardSplit_dropLast m hm (pySplit s) g hg
  · rw [List.all_eq_true]
    intro g hg
    obtain ⟨hne, hle⟩ := hardSplit_mem_bound m hm (pySplit s) g hg
    simp [hne, hle]

/-- Witness for claim C5 at a concrete oversized sentence and budget. -/
theorem claim_C5_witness :
    (1 ≤ 2 ∧ 2 < (pySplit exSentB).length) ∧
    (chunkLoop 2 (exSentB :: []) [] 0 =
      flushChunk [] ++ (hardSplit 2 (pySplit exSentB)).map joinSp
        ++ chunkLoop 2 [] [] 0 ∧
    ((hardSplit 2 (pySplit exSentB)).map joinSp).length
      = ((pySplit exSentB).length + 2 - 1) / 2 ∧
    ((hardSplit 2 (pySplit exSentB)).map joinSp).map (fun f => (pySplit f).length)
      = (hardSplit 2 (pySplit exSentB)).map List.length ∧
    ((hardSplit 2 (pySplit exSentB)).dropLast).all (fun g => g.length == 2) = true ∧
    (hardSplit 2 (pySplit exSentB)).all
      (fun g => decide (g.length ≤ 2) && !g.isEmpty) = true) :=
  ⟨⟨by decide, by decide⟩,
    claim_C5_hard_split 2 exSentB [] [] 0 (by decide) (by decide)⟩

/-- Claim C9: for every max_words at least 1, the chunker returns the
empty sequence on the empty string and on a whitespace-only string of
three spaces, and a sentence with zero words is skipped entirely by the
packing loop, contributing no chunk. -/
theorem claim_C9_degenerate_inputs (m : Nat) (s : List Char)
    (rest cur : List (List Char)) (curW : Nat)
    (_hm : 1 ≤ m) (hs : pySplit s = []) :
    split_into_sentence_chunks [] m = [] ∧
    split_into_sentence_chunks threeSpaces m = [] ∧
    chunkLoop m (s :: rest) cur curW = chunkLoop m rest cur curW := by
  refine ⟨rfl, ?_, ?_⟩
  · rfl
  · simp only [chunkLoop, hs]
    rfl

/-- Witness for claim C9 at a concrete budget and zero-word sentence. -/
theorem claim_C9_witness :
    (1 ≤ 1 ∧ pySplit [] = []) ∧
    (split_into_sentence_chunks [] 1 = [] ∧
     split_into_sentence_chunks threeSpaces 1 = [] ∧
     chunkLoop 1 ([] :: []) [] 0 = chunkLoop 1 [] [] 0) :=
  ⟨⟨by decide, by decide⟩,
    claim_C9_degenerate_inputs 1 [] [] [] 0 (by decide) (by decide)⟩

/-- Claim C10: for every text and max_words at least 1, every chunk the
chunker returns is a nonempty string containing at least one word, so
playback never receives an empty chunk. -/
theorem claim_C10_chunks_nonempty (text : List Char) (m : Nat) (hm : 1 ≤ m) :
    chunksNonEmpty (split_into_sentence_chunks text m) = true := by
  rw [chunksNonEmpty, List.all_eq_true]
  intro c hc
  unfold split_into_sentence_chunks at hc
  by_cases h : text.isEmpty
  · rw [if_pos h] at hc
    cases hc
  · rw [if_neg (by simpa using h)] at hc
    obtain ⟨h1, h2⟩ := chunkLoop_nonempty m hm _ [] 0 (by simp) c hc
    simp only [Bool.and_eq_true, Bool.not_eq_true']
    constructor
    · simpa using h2
    · simpa using h1

/-- Witness for claim C10 at a concrete text and budget. -/
theorem claim_C10_witness :
    1 ≤ 3 ∧ chunksNonEmpty (split_into_sentence_chunks exTextA 3) = true :=
  ⟨by decide, claim_C10_chunks_nonempty exTextA 3 (by decide)⟩

/-! ### The generation gateway (llm_interface.py) -/

/-- Python regex word character over ASCII: letters, digits and the
underscore (the class kept by the sanitiser at llm_interface.py line 70). -/
def isWordChar (c : Char) : Bool :=
  c.isAlphanum || c == '_'

/-- First filler paragraph of the deterministic fallback generator. -/
def fillerSample1 : List Char :=
  "The mind wanders like a loose thread, catching on unrelated memories until a small story forms.".toList

/-- Second filler paragraph of the deterministic fallback generator. -/
def fillerSample2 : List Char :=
  "I trace the edges of an idea and find it mirrors the ordinary: a kettle, a key, a cat in a sunbeam.".toList

/-- Third filler paragraph of the deterministic fallback generator. -/
def fillerSample3 : List Char :=
  "Between cause and effect there is a hallway of choices; today I walk it slowly, counting the doors.".toList

/-- The fixed sample set of _dummy_generate (llm_interface.py lines 79-83). -/
def fillerSamples : List (List Char) :=
  (fillerSample1 :: fillerSample2 :: fillerSample3 :: [])

/-- The fallback seed: sum of the prompt's character codes modulo 1000
(llm_interface.py line 77). -/
def promptSeed (prompt : List Char) : Nat :=
  (prompt.map Char.toNat).sum % 1000

/-- Python "\n\n".join. -/
def joinNl : List (List Char) → List Char
  | [] => []
  | [s] => s
  | s :: r1 :: rest => s ++ '\n' :: '\n' :: joinNl (r1 :: rest)

/-- LLMInterface._dummy_generate (llm_interface.py lines 75-84): seed a
pseudo-random generator from the prompt and join a random permutation of
the filler paragraphs with blank lines.  The Mersenne-Twister draw of
random.sample is modelled by an explicit seed-indexed permutation-valued
parameter `sample`. -/
def LLMInterface.dummy_generate
    (sample : Nat → List (List Char) → List (List Char))
    (prompt : List Char) : List Char :=
  joinNl (sample (promptSeed prompt) fillerSamples)

/-- LLMInterface.generate (llm_interface.py lines 46-60).  `available`
is the constructor-computed availability flag; `backendOutput` is the
backend invocation result, `none` when it raises; a successful output is
stripped before being returned. -/
def LLMInterface.generate
    (sample : Nat → List (List Char) → List (List Char))
    (available : Bool) (backendOutput : Option (List Char))
    (prompt : List Char) (_maxTokens : Nat) : List Char :=
  if !available then LLMInterface.dummy_generate sample prompt
  else
    match backendOutput with
    | some t => stripWS t
    | none => LLMInterface.dummy_generate sample prompt

/-- The built-in default topics (llm_interface.py lines 71-73). -/
def topicDefaults : List (List Char) :=
  ("amusement parks".toList :: "rainy sidewalks".toList ::
    "old libraries".toList :: "lost satellites".toList :: [])

/-- The sanitising steps of generate_topic (llm_interface.py lines
69-70): collapse whitespace runs, strip, then delete every character
that is not a word character, whitespace or a hyphen. -/
def sanitizeTopicLine (raw : List Char) : List Char :=
  (stripWS (collapseWS raw)).filter (fun c => isWordChar c || isWS c || c == '-')

/-- LLMInterface.generate_topic (llm_interface.py lines 62-73) as a
function of the raw backend output: the sanitised line truncated to 64
characters, or, when the sanitised line is empty, a default chosen by
the random draw `choice`. -/
def LLMInterface.generate_topic (raw : List Char) (choice : Fin 4) : List Char :=
  let line := sanitizeTopicLine raw
  if line.isEmpty then topicDefaults.getD choice.val [] else line.take 64

/-- No two adjacent whitespace characters (what "whitespace-collapsed"
means for the output of the collapsing substitution). -/
def collapsedB : List Char → Bool
  | [] => true
  | [_] => true
  | a :: b :: r => !(isWS a && isWS b) && collapsedB (b :: r)

/-- The raw backend output refuting claim C3. -/
def exRawC3 : List Char := "a _ . b".toList

/-- Claim C3 is false as stated: sanitisation collapses whitespace
before deleting punctuation, so deleting the dot of "a _ . b" leaves two
adjacent spaces, and the kept word class admits the underscore, which is
not alphanumeric, whitespace or hyphen. -/
theorem claim_C3_counterexample :
    LLMInterface.generate_topic exRawC3 (0 : Fin 4) = "a _  b".toList ∧
    ¬ (collapsedB (LLMInterface.generate_topic exRawC3 (0 : Fin 4)) = true ∧
       (LLMInterface.generate_topic exRawC3 (0 : Fin 4)).all
         (fun c => c.isAlphanum || isWS c || c == '-') = true) := by
  decide

theorem topicDefaults_ok :
    ∀ d ∈ topicDefaults,
      d ≠ [] ∧ d.length ≤ 64 ∧
      d.all (fun c => isWordChar c || isWS c || c == '-') = true := by
  decide

theorem topicDefaults_getD_mem :
    ∀ v < 4, topicDefaults.getD v [] ∈ topicDefaults := by
  decide

/-- Claim C3 amended: for every backend output, generate_topic returns a
nonempty string of at most 64 characters whose characters are all word
characters (alphanumerics or underscore), whitespace or hyphens; the
whitespace collapsing happens before punctuation deletion, so the result
need not be whitespace-collapsed; if the sanitised line is empty the
result is drawn from the built-in default set. -/
theorem claim_C3_amended (raw : List Char) (choice : Fin 4) :
    LLMInterface.generate_topic raw choice ≠ [] ∧
    (LLMInterface.generate_topic raw choice).length ≤ 64 ∧
    (LLMInterface.generate_topic raw choice).all
      (fun c => isWordChar c || isWS c || c == '-') = true ∧
    (sanitizeTopicLine raw ≠ [] ∨
      LLMInterface.generate_topic raw choice ∈ topicDefaults) := by
  by_cases hline : (sanitizeTopicLine raw).isEmpty
  · have hres : LLMInterface.generate_topic raw choice
        = topicDefaults.getD choice.val [] := by
      simp [LLMInterface.generate_topic, hline]
    have hmem : topicDefaults.getD choice.val [] ∈ topicDefaults :=
      topicDefaults_getD_mem choice.val choice.isLt
    obtain ⟨h1, h2, h3⟩ := topicDefaults_ok _ hmem
    rw [hres]
    exact ⟨h1, h2, h3, Or.inr (hres ▸ hmem)⟩
  · have hne : sanitizeTopicLine raw ≠ [] := by simpa using hline
    have hres : LLMInterface.generate_topic raw choice
        = (sanitizeTopicLine raw).take 64 := by
      simp [LLMInterface.generate_topic, hline]
    rw [hres]
    refine ⟨?_, ?_, ?_, Or.inl hne⟩
    · rcases hcase : sanitizeTopicLine raw with _ | ⟨c, r⟩
      · exact absurd hcase hne
      · simp
    · rw [List.length_take]
      omega
    · rw [List.all_eq_true]
      intro c hc
      have hcl : c ∈ sanitizeTopicLine raw := List.take_subset _ _ hc
      have := List.mem_filter.mp hcl
      exact this.2

/-- Witness for the amended claim C3 at a concrete raw output. -/
theorem claim_C3_amended_witness :
    LLMInterface.generate_topic exRawC3 (0 : Fin 4) ≠ [] ∧
    (LLMInterface.generate_topic exRawC3 (0 : Fin 4)).length ≤ 64 ∧
    (LLMInterface.generate_topic exRawC3 (0 : Fin 4)).all
      (fun c => isWordChar c || isWS c || c == '-') = true ∧
    (sanitizeTopicLine exRawC3 ≠ [] ∨
      LLMInterface.generate_topic exRawC3 (0 : Fin 4) ∈ topicDefaults) :=
  claim_C3_amended exRawC3 (0 : Fin 4)

/-- Concrete prompts with equal fallback seed (97 + 98 = 98 + 97). -/
def exPromptA : List Char := "ab".toList

/-- Second concrete prompt with the same character-code sum. -/
def exPromptB : List Char := "ba".toList

/-- Claim C4 is false as stated: generate does not always return
non-empty text.  A backend that succeeds but returns whitespace-only
text makes generate return its stripped output, the empty string (the
controller at main.py line 157 even guards against this). -/
theorem claim_C4_counterexample :
    LLMInterface.generate (fun _ l => l) true (some threeSpaces) exPromptA 512
      = [] := by
  decide

/-- Claim C4 amended: a backend that is unavailable or raises never
propagates a failure: generate then returns the deterministic fallback,
which is non-empty and depends on the prompt only through the seed
sum-of-character-codes modulo 1000.  (On a successful backend call,
generate returns the stripped backend text, which may be empty.) -/
theorem claim_C4_amended
    (sample : Nat → List (List Char) → List (List Char))
    (available : Bool) (backendOutput : Option (List Char))
    (prompt prompt2 : List Char) (maxTokens : Nat)
    (hperm : ∀ n l, List.Perm (sample n l) l)
    (hfail : available = false ∨ backendOutput = none)
    (hseed : promptSeed prompt = promptSeed prompt2) :
    LLMInterface.generate sample available backendOutput prompt maxTokens
      = LLMInterface.dummy_generate sample prompt ∧
    LLMInterface.dummy_generate sample prompt ≠ [] ∧
    LLMInterface.dummy_generate sample prompt
      = LLMInterface.dummy_generate sample prompt2 := by
  refine ⟨?_, ?_, ?_⟩
  · rcases hfail with h | h
    · subst h
      simp [LLMInterface.generate]
    · subst h
      cases available <;> simp [LLMInterface.generate]
  · have hlen : (sample (promptSeed prompt) fillerSamples).length = 3 :=
      (hperm (promptSeed prompt) fillerSamples).length_eq
    obtain ⟨a, b, c, habc⟩ := List.length_eq_three.mp hlen
    show joinNl (sample (promptSeed prompt) fillerSamples) ≠ []
    rw [habc]
    simp [joinNl]
  · show joinNl (sample (promptSeed prompt) fillerSamples)
      = joinNl (sample (promptSeed prompt2) fillerSamples)
    rw [hseed]

/-- Witness for the amended claim C4: identity permutation, unavailable
backend, two prompts with the same seed. -/
theorem claim_C4_witness :
    LLMInterface.generate (fun _ l => l) false none exPromptA 512
      = LLMInterface.dummy_generate (fun _ l => l) exPromptA ∧
    LLMInterface.dummy_generate (fun _ l => l) exPromptA ≠ [] ∧
    LLMInterface.dummy_generate (fun _ l => l) exPromptA
      = LLMInterface.dummy_generate (fun _ l => l) exPromptB :=
  claim_C4_amended (fun _ l => l) false none exPromptA exPromptB 512
    (fun _ l => List.Perm.refl l) (Or.inl rfl) (by decide)

/-! ### The persona pipeline controller (main.py) -/

/-- The two values of AppController._awaiting (main.py line 113). -/
inductive Await : Type
  | topic : Await
  | text : Await
deriving DecidableEq

/-- The controller state observable through the claims: the number of
prepared personas, the current index _idx (starting at -1), _awaiting,
whether a generation request has been issued and not yet answered,
whether the terminal "All personas complete" status was shown, and the
trace of persona indices entered so far (instrumentation). -/
structure Ctrl : Type where
  numPersonas : Nat
  idx : Int
  awaiting : Option Await
  requestPending : Bool
  allComplete : Bool
  visited : List Int

/-- AppController._next_persona (main.py lines 136-152): advance the
index; past the end show the terminal status and stop, otherwise enter
the persona (recording it in the trace), set _awaiting to topic and
issue gen_topic. -/
def AppController.next_persona (c : Ctrl) : Ctrl :=
  let i := c.idx + 1
  if (c.numPersonas : Int) ≤ i then
    { c with idx := i, allComplete := true }
  else
    { c with
      idx := i
      awaiting := some Await.topic
      requestPending := true
      visited := c.visited ++ [i] }

/-- AppController._on_worker_error (main.py lines 180-183): consume the
error signal and skip to the next persona without retrying. -/
def AppController.on_worker_error (c : Ctrl) : Ctrl :=
  AppController.next_persona { c with requestPending := false }

/-- AppController.start after preparing n personas (main.py lines
121-127): _idx is -1 and the first persona is entered. -/
def AppController.start (n : Nat) : Ctrl :=
  AppController.next_persona
    { numPersonas := n
      idx := -1
      awaiting := none
      requestPending := false
      allComplete := false
      visited := [] }

/-- The run in which every generation call yields an error signal: while
a request is pending, deliver an error; the fuel bounds the number of
deliveries. -/
def runAllErrors : Nat → Ctrl → Ctrl
  | 0, c => c
  | fuel + 1, c =>
    if c.requestPending then runAllErrors fuel (AppController.on_worker_error c)
    else c

theorem runAllErrors_spec (n : Nat) :
    ∀ (r : Nat) (c : Ctrl), c.numPersonas = n → c.requestPending = true →
    (n : Int) = c.idx + 1 + r →
    (runAllErrors (r + 1) c).numPersonas = n ∧
    (runAllErrors (r + 1) c).idx = (n : Int) ∧
    (runAllErrors (r + 1) c).requestPending = false ∧
    (runAllErrors (r + 1) c).allComplete = true ∧
    (runAllErrors (r + 1) c).visited
      = c.visited ++ (List.range r).map (fun j : Nat => c.idx + 1 + (j : Int)) := by
  intro r
  induction r with
  | zero =>
    intro c hn hp hcount
    have hterm : (c.numPersonas : Int) ≤ c.idx + 1 := by omega
    have hres : runAllErrors 1 c =
        { c with
          idx := c.idx + 1
          requestPending := false
          allComplete := true } := by
      simp only [runAllErrors, hp, if_true, AppController.on_worker_error,
        AppController.next_persona]
      rw [if_pos hterm]
    rw [hres]
    refine ⟨hn, ?_, rfl, rfl, by simp⟩
    dsimp only
    omega
  | succ r ih =>
    intro c hn hp hcount
    have hstep : runAllErrors (r + 1 + 1) c
        = runAllErrors (r + 1) (AppController.on_worker_error c) := by
      simp only [runAllErrors, hp, if_true]
    have hnoterm : ¬ (c.numPersonas : Int) ≤ c.idx + 1 := by omega
    have herr : AppController.on_worker_error c =
        { c with
          idx := c.idx + 1
          awaiting := some Await.topic
          requestPending := true
          visited := c.visited ++ [c.idx + 1] } := by
      simp only [AppController.on_worker_error, AppController.next_persona]
      rw [if_neg hnoterm]
    rw [hstep, herr]
    obtain ⟨g1, g2, g3, g4, g5⟩ := ih
      { c with
        idx := c.idx + 1
        awaiting := some Await.topic
        requestPending := true
        visited := c.visited ++ [c.idx + 1] }
      hn rfl (by dsimp only; omega)
    refine ⟨g1, g2, g3, g4, ?_⟩
    rw [g5]
    dsimp only
    rw [List.append_assoc, List.singleton_append]
    congr 1
    rw [List.range_succ_eq_map, List.map_cons, List.map_map]
    congr 1
    · simp
    · apply List.map_congr_left
      intro j _
      simp only [Function.comp_apply]
      push_cast
      ring

theorem start_enters_first (n : Nat) (hn : 1 ≤ n) :
    AppController.start n =
      { numPersonas := n
        idx := 0
        awaiting := some Await.topic
        requestPending := true
        allComplete := false
        visited := [0] } := by
  simp only [AppController.start, AppController.next_persona]
  rw [if_neg (by omega)]
  norm_num

theorem range_cast_shift (m : Nat) :
    (0 : Int) :: (List.range m).map (fun j : Nat => (0 : Int) + 1 + (j : Int))
      = (List.range (m + 1)).map (fun j : Nat => (j : Int)) := by
  rw [List.range_succ_eq_map, List.map_cons, List.map_map]
  simp only [List.cons.injEq]
  refine ⟨by norm_num, ?_⟩
  apply List.map_congr_left
  intro j _
  simp only [Function.comp_apply]
  push_cast
  ring

/-- Claim C6: in a run where every generation call signals an error, the
controller still visits every prepared persona exactly once and in
order, advancing on each error without retrying, and ends in the
terminal all-personas-complete state with no request outstanding. -/
theorem claim_C6_error_run_completes (n : Nat) :
    (runAllErrors n (AppController.start n)).allComplete = true ∧
    (runAllErrors n (AppController.start n)).requestPending = false ∧
    (runAllErrors n (AppController.start n)).idx = (n : Int) ∧
    (runAllErrors n (AppController.start n)).visited
      = (List.range n).map (fun j : Nat => (j : Int)) := by
  rcases n with _ | m
  · have h0 : AppController.start 0 =
        { numPersonas := 0
          idx := 0
          awaiting := none
          requestPending := false
          allComplete := true
          visited := [] } := by
      simp only [AppController.start, AppController.next_persona]
      rw [if_pos (by omega)]
      norm_num
    simp [runAllErrors, h0]
  · have hstart := start_enters_first (m + 1) (by omega)
    obtain ⟨g1, g2, g3, g4, g5⟩ := runAllErrors_spec (m + 1) m
      (AppController.start (m + 1))
      (by rw [hstart]) (by rw [hstart]) (by rw [hstart]; dsimp only; omega)
    refine ⟨g4, g3, g2, ?_⟩
    rw [g5, hstart]
    dsimp only
    rw [List.singleton_append]
    exact range_cast_shift m

/-- Witness for claim C6 at a run of two personas. -/
theorem claim_C6_witness :
    (runAllErrors 2 (AppController.start 2)).allComplete = true ∧
    (runAllErrors 2 (AppController.start 2)).requestPending = false ∧
    (runAllErrors 2 (AppController.start 2)).idx = ((2 : Nat) : Int) ∧
    (runAllErrors 2 (AppController.start 2)).visited
      = (List.range 2).map (fun j : Nat => (j : Int)) :=
  claim_C6_error_run_completes 2

/-! ### The playback engine (ui_renderer.py) -/

/-- Observable effects of the playback engine entry points: text and
opacity updates, scheduled one-shot timers, fade starts, and the
finished signal. -/
inductive PlayEffect : Type
  | setText : List Char → PlayEffect
  | scheduleFinished : Nat → PlayEffect
  | setOpacityZero : PlayEffect
  | setHtml : List Char → PlayEffect
  | startFadeIn : PlayEffect
  | startFadeOut : PlayEffect
  | emitFinished : PlayEffect
deriving DecidableEq

/-- The playback-relevant state of UIRenderer: the chunk sequence, the
current index _chunk_idx (starting at -1), the per-chunk hold duration
in milliseconds, and the configured default duration in seconds. -/
structure PlayState : Type where
  chunks : List (List Char)
  chunk_idx : Int
  chunk_duration_ms : Nat
  chunk_duration_s : Nat

/-- UIRenderer._show_next_chunk (ui_renderer.py lines 153-172): advance
the index; past the end emit the finished signal, otherwise display the
chunk (on the initial call the opacity is forced to 0 and the fade-in
starts at once; otherwise the fade-out of the previous chunk starts). -/
def UIRenderer.show_next_chunk (st : PlayState) (initial : Bool) :
    PlayState × List PlayEffect :=
  let st2 : PlayState := { st with chunk_idx := st.chunk_idx + 1 }
  if (st2.chunks.length : Int) ≤ st2.chunk_idx then
    (st2, [PlayEffect.emitFinished])
  else
    let text := st2.chunks.getD st2.chunk_idx.toNat []
    if initial then
      (st2, [PlayEffect.setOpacityZero, PlayEffect.setHtml text,
        PlayEffect.startFadeIn])
    else
      (st2, [PlayEffect.startFadeOut])

/-- UIRenderer.play_chunks (ui_renderer.py lines 107-117): store the
chunk list, reset the index to -1, compute the hold duration (minimum
1000 ms); an empty sequence clears the balloon and schedules the
finished signal after a fixed 300 ms delay instead of starting playback. -/
def UIRenderer.play_chunks (st : PlayState) (chunks : List (List Char))
    (duration_s : Option Nat) : PlayState × List PlayEffect :=
  let st1 : PlayState := { st with chunks := chunks, chunk_idx := -1 }
  let d := duration_s.getD st.chunk_duration_s
  let st2 : PlayState := { st1 with chunk_duration_ms := max 1000 (d * 1000) }
  if st2.chunks.isEmpty then
    (st2, [PlayEffect.setText [], PlayEffect.scheduleFinished 300])
  else
    UIRenderer.show_next_chunk st2 true

/-- A fade transition effect. -/
def isFade : PlayEffect → Bool
  | PlayEffect.startFadeIn => true
  | PlayEffect.startFadeOut => true
  | _ => false

/-- Claim C7: starting playback with an empty chunk sequence resets the
index to -1, emits only the balloon clear and the finished signal
scheduled after the fixed 300 ms delay, and never starts a fade-in or
fade-out transition before that signal. -/
theorem claim_C7_empty_playback (st : PlayState) (d : Option Nat) :
    (UIRenderer.play_chunks st [] d).1.chunk_idx = -1 ∧
    (UIRenderer.play_chunks st [] d).2
      = [PlayEffect.setText [], PlayEffect.scheduleFinished 300] ∧
    (UIRenderer.play_chunks st [] d).2.all (fun e => !isFade e) = true := by
  refine ⟨rfl, rfl, ?_⟩
  rfl

/-- Witness for claim C7 at a concrete renderer state. -/
theorem claim_C7_witness :
    (UIRenderer.play_chunks ⟨[], -1, 30000, 30⟩ [] none).1.chunk_idx = -1 ∧
    (UIRenderer.play_chunks ⟨[], -1, 30000, 30⟩ [] none).2
      = [PlayEffect.setText [], PlayEffect.scheduleFinished 300] ∧
    (UIRenderer.play_chunks ⟨[], -1, 30000, 30⟩ [] none).2.all
      (fun e => !isFade e) = true :=
  claim_C7_empty_playback ⟨[], -1, 30000, 30⟩ none

/-- Python int() applied to a nonnegative or negative float value:
truncation toward zero, modelled on exact rationals. -/
def pytrunc (q : ℚ) : ℤ :=
  if 0 ≤ q then ⌊q⌋ else ⌈q⌉

/-- One coordinate of UIRenderer._apply_balloon_geometry (ui_renderer.py
lines 120-131): int(designValue / max(1, designDim) * currentDim). -/
def scaleVal (designDim v cur : ℤ) : ℤ :=
  pytrunc ((v : ℚ) / ((max 1 designDim : ℤ) : ℚ) * (cur : ℚ))

/-- UIRenderer._apply_balloon_geometry: the on-screen rectangle computed
from the design-space rectangle (x, y, w, h), the design dimensions and
the current viewport dimensions, each coordinate scaled independently. -/
def UIRenderer.apply_balloon_geometry (design_w design_h : ℤ)
    (x y w h : ℤ) (curW curH : ℤ) : ℤ × ℤ × ℤ × ℤ :=
  (scaleVal design_w x curW, scaleVal design_h y curH,
    scaleVal design_w w curW, scaleVal design_h h curH)

theorem pytrunc_mul_bound (k : ℤ) (x : ℚ) (hk : 1 ≤ k) :
    |pytrunc ((k : ℚ) * x) - k * pytrunc x| ≤ k - 1 := by
  rcases le_or_lt 0 x with hx | hx
  · have hk0 : (0 : ℚ) ≤ (k : ℚ) := by exact_mod_cast (by omega : (0 : ℤ) ≤ k)
    have hkx : (0 : ℚ) ≤ (k : ℚ) * x := mul_nonneg hk0 hx
    rw [pytrunc, pytrunc, if_pos hkx, if_pos hx]
    have h1 : k * ⌊x⌋ ≤ ⌊(k : ℚ) * x⌋ := by
      apply Int.le_floor.mpr
      push_cast
      exact mul_le_mul_of_nonneg_left (Int.floor_le x) hk0
    have h2 : ⌊(k : ℚ) * x⌋ < k * ⌊x⌋ + k := by
      have hklt : (0 : ℚ) < (k : ℚ) := by exact_mod_cast (by omega : (0 : ℤ) < k)
      have hlt : (k : ℚ) * x < k * ((⌊x⌋ : ℚ) + 1) :=
        mul_lt_mul_of_pos_left (Int.lt_floor_add_one x) hklt
      apply Int.floor_lt.mpr
      push_cast
      linarith
    rw [abs_le]
    constructor <;> omega
  · have hkq : (0 : ℚ) < (k : ℚ) := by exact_mod_cast (by omega : (0 : ℤ) < k)
    have hkx : ¬ (0 : ℚ) ≤ (k : ℚ) * x := by
      push_neg
      exact mul_neg_of_pos_of_neg hkq hx
    rw [pytrunc, pytrunc, if_neg hkx, if_neg (not_le.mpr hx)]
    have h1 : ⌈(k : ℚ) * x⌉ ≤ k * ⌈x⌉ := by
      apply Int.ceil_le.mpr
      push_cast
      exact mul_le_mul_of_nonneg_left (Int.le_ceil x) (le_of_lt hkq)
    have h2 : k * ⌈x⌉ - k < ⌈(k : ℚ) * x⌉ := by
      apply Int.lt_ceil.mpr
      push_cast
      have hceil := Int.ceil_lt_add_one x
      have hlt : (k : ℚ) * ((⌈x⌉ : ℚ) - 1) < k * x := by
        apply mul_lt_mul_of_pos_left _ hkq
        linarith
      linarith
    rw [abs_le]
    constructor <;> omega

theorem scaleVal_scale (designDim v cur k : ℤ) (hk : 1 ≤ k) :
    |scaleVal designDim v (k * cur) - k * scaleVal designDim v cur| ≤ k - 1 := by
  have harg : (v : ℚ) / ((max 1 designDim : ℤ) : ℚ) * ((k * cur : ℤ) : ℚ)
      = (k : ℚ) * ((v : ℚ) / ((max 1 designDim : ℤ) : ℚ) * (cur : ℚ)) := by
    push_cast
    ring
  rw [scaleVal, scaleVal, harg]
  exact pytrunc_mul_bound k _ hk

/-- Claim C8: the computed on-screen rectangle is design_value divided
by the design dimension times the current dimension, truncated to an
integer, applied independently to x, y, width and height; consequently
scaling the viewport by an integer factor k scales each of the four
computed values by k up to an integer rounding error below k. -/
theorem claim_C8_geometry_scales (design_w design_h x y w h curW curH k : ℤ)
    (hk : 1 ≤ k) :
    UIRenderer.apply_balloon_geometry design_w design_h x y w h curW curH
      = (pytrunc ((x : ℚ) / ((max 1 design_w : ℤ) : ℚ) * (curW : ℚ)),
         pytrunc ((y : ℚ) / ((max 1 design_h : ℤ) : ℚ) * (curH : ℚ)),
         pytrunc ((w : ℚ) / ((max 1 design_w : ℤ) : ℚ) * (curW : ℚ)),
         pytrunc ((h : ℚ) / ((max 1 design_h : ℤ) : ℚ) * (curH : ℚ))) ∧
    |scaleVal design_w x (k * curW) - k * scaleVal design_w x curW| ≤ k - 1 ∧
    |scaleVal design_h y (k * curH) - k * scaleVal design_h y curH| ≤ k - 1 ∧
    |scaleVal design_w w (k * curW) - k * scaleVal design_w w curW| ≤ k - 1 ∧
    |scaleVal design_h h (k * curH) - k * scaleVal design_h h curH| ≤ k - 1 :=
  ⟨rfl, scaleVal_scale design_w x curW k hk, scaleVal_scale design_h y curH k hk,
    scaleVal_scale design_w w curW k hk, scaleVal_scale design_h h curH k hk⟩

/-- Witness for claim C8 at the default design space, default balloon
rectangle, a concrete viewport and scale factor 2. -/
theorem claim_C8_witness :
    (1 : ℤ) ≤ 2 ∧
    (UIRenderer.apply_balloon_geometry 1024 768 80 80 864 560 500 400
      = (pytrunc ((80 : ℚ) / ((max 1 (1024 : ℤ) : ℤ) : ℚ) * ((500 : ℤ) : ℚ)),
         pytrunc ((80 : ℚ) / ((max 1 (768 : ℤ) : ℤ) : ℚ) * ((400 : ℤ) : ℚ)),
         pytrunc ((864 : ℚ) / ((max 1 (1024 : ℤ) : ℤ) : ℚ) * ((500 : ℤ) : ℚ)),
         pytrunc ((560 : ℚ) / ((max 1 (768 : ℤ) : ℤ) : ℚ) * ((400 : ℤ) : ℚ))) ∧
    |scaleVal 1024 80 (2 * 500) - 2 * scaleVal 1024 80 500| ≤ 2 - 1 ∧
    |scaleVal 768 80 (2 * 400) - 2 * scaleVal 768 80 400| ≤ 2 - 1 ∧
    |scaleVal 1024 864 (2 * 500) - 2 * scaleVal 1024 864 500| ≤ 2 - 1 ∧
    |scaleVal 768 560 (2 * 400) - 2 * scaleVal 768 560 400| ≤ 2 - 1) :=
  ⟨by decide, claim_C8_geometry_scales 1024 768 80 80 864 560 500 400 2 (by decide)⟩
